import Mathlib

/-!
Shallow embedding of the File_Transfer LAN sharing server (src/app.py).

The mutable module-level maps of app.py (active_transfers, assembling_files,
connected_users, pending_clients, chat_messages, kicked_users, the temp chunk
folder, the upload folder and the metadata sidecar folder) are gathered into a
ServerState record, and each HTTP handler of interest becomes a pure function
from a state and the request data to a new state and a response record.
Wall-clock reads (time.time and datetime.now) become explicit parameters.
Bytes are modeled as List Nat.  The werkzeug sanitizer secure_filename and the
md5 keying get_file_hash are external to the repository and are modeled as an
identity and an injective tagging respectively.
-/

set_option maxRecDepth 8192

/-- Pointwise update of a function-backed map (a Python dict write or delete). -/
def fupd {α β : Type} [DecidableEq α] (m : α → Option β) (k : α) (v : Option β) :
    α → Option β :=
  fun x => if x = k then v else m x

/-- Update of the two-level temp-chunk map keyed by transfer id and chunk index. -/
def fupd2 {β : Type} (m : String → Nat → Option β) (k : String) (i : Nat) (v : Option β) :
    String → Nat → Option β :=
  fun x j => if x = k ∧ j = i then v else m x j

/-- Python dict assignment on an insertion-ordered association list: an existing
key keeps its position, a new key is appended at the end. -/
def assocUpsert {α β : Type} [DecidableEq α] (k : α) (v : β) :
    List (α × β) → List (α × β)
  | [] => [(k, v)]
  | (x, w) :: rest => if x = k then (k, v) :: rest else (x, w) :: assocUpsert k v rest

/-- Python dict lookup on an association list. -/
def assocLookup {α β : Type} [DecidableEq α] (k : α) : List (α × β) → Option β
  | [] => none
  | (x, w) :: rest => if x = k then some w else assocLookup k rest

/-- Python set.add on a list-encoded set of chunk indices. -/
def setAdd (i : Nat) (l : List Nat) : List Nat :=
  if i ∈ l then l else i :: l

/-- Python set.add for the assembling-filenames set. -/
def strAdd (s : String) (l : List String) : List String :=
  if s ∈ l then l else s :: l

/-- Python set removal for the assembling-filenames set (guarded by membership
in the source, so removing an absent element never occurs there). -/
def strRemove (s : String) : List String → List String
  | [] => []
  | y :: rest => if y = s then strRemove s rest else y :: strRemove s rest

/-- One download record appended by add_download_record (app.py lines 168-181). -/
structure DownloadRecord where
  username : String
  timestamp : String
deriving DecidableEq

/-- Content of a per-file metadata sidecar (app.py save/load_file_metadata). -/
structure FileMetadata where
  filename : String
  uploaded_by : String
  upload_time : String
  file_size : Nat
  downloads : List DownloadRecord
deriving DecidableEq

/-- On-disk state of a metadata sidecar: missing, present but unreadable (the
open or json.load call raises), or readable with well-formed content. -/
inductive SidecarState where
  | missing
  | unreadable
  | readable (m : FileMetadata)
deriving DecidableEq

/-- One chat message (app.py add_chat_message, lines 123-134). -/
structure ChatMessage where
  username : String
  message : String
  timestamp : String
  type : String
deriving DecidableEq

/-- An in-flight chunked upload in active_transfers (app.py lines 814-826).
The start_time field is omitted: it only feeds the wall-clock speed metric. -/
structure Transfer where
  filename : String
  total_chunks : Nat
  received_chunks : List Nat
  total_bytes : Nat
  chunk_sizes : List (Nat × Nat)
deriving DecidableEq

/-- A presence record in connected_users (app.py line 76). -/
structure UserRecord where
  username : String
  last_seen : Nat
  is_server : Bool
deriving DecidableEq

/-- One entry of the list returned by get_online_users. -/
structure OnlineUser where
  username : String
  is_server : Bool
deriving DecidableEq

/-- A pending join request in pending_clients (app.py line 81). -/
structure PendingClient where
  name : String
  status : String
  timestamp : Nat
  ip : String
deriving DecidableEq

/-- Authenticated request context seen by update_user_activity: the session
username, the session internal id, the remote address and the role flag. -/
structure Caller where
  remote_addr : String
  username : String
  sid : String
  is_server : Bool

/-- The module-level mutable state of app.py plus the relevant file system
content: temp chunk files, assembled files and metadata sidecars. -/
structure ServerState where
  tempChunks : String → Nat → Option (List Nat)
  finalFiles : String → Option (List Nat)
  activeTransfers : String → Option Transfer
  assemblingFiles : List String
  sidecars : String → SidecarState
  chatMessages : List ChatMessage
  connected_users : List (String × UserRecord)
  pending_clients : List (String × PendingClient)
  kicked_users : List String

/-- The json body and status of a /upload_chunk response.  An absent
completed field in an error body is modeled as false. -/
structure UploadResponse where
  success : Bool
  completed : Bool
  received : Option Nat
  total : Option Nat
  size : Option Nat
  status : Nat
  error : Option String
deriving DecidableEq

/-- A /download_parallel response: status, streamed bytes, and the
Content-Range and Content-Length headers when set. -/
structure DownloadResponse where
  status : Nat
  body : Option (List Nat)
  contentRange : Option (Nat × Nat × Nat)
  contentLength : Option Int
deriving DecidableEq

/-- A /join/request response. -/
structure JoinResponse where
  success : Bool
  client_id : Option String
  error : Option String
  status : Nat
deriving DecidableEq

/-- A /file_info response. -/
structure InfoResponse where
  status : Nat
  metadata : FileMetadata
deriving DecidableEq

def MAX_MESSAGES : Nat := 100

def USER_TIMEOUT : Nat := 30

def CHUNK_SIZE : Nat := 2 * 1024 * 1024

/-- werkzeug secure_filename: an external sanitizer, modeled as the identity
on already-sanitized names. -/
def secure_filename (s : String) : String := s

/-- get_file_hash (app.py line 112): the md5 hex digest of the filename,
modeled as an injective tagging of the name. -/
def get_file_hash (filename : String) : String := String.append "md5:" filename

/-- add_chat_message (app.py lines 123-134): append to the tail, pop the head
when the length exceeds MAX_MESSAGES. -/
def add_chat_message (log : List ChatMessage) (username message nowStr ty : String) :
    List ChatMessage :=
  let log1 := log ++ [{ username := username, message := message,
                        timestamp := nowStr, type := ty }]
  if MAX_MESSAGES < log1.length then log1.drop 1 else log1

/-- The default metadata returned by load_file_metadata when the sidecar is
missing or unreadable (app.py lines 159-166). -/
def defaultMetadata (filename : String) : FileMetadata :=
  { filename := filename, uploaded_by := "Unknown", upload_time := "Unknown",
    file_size := 0, downloads := [] }

/-- load_file_metadata (app.py lines 149-166). -/
def load_file_metadata (st : ServerState) (filename : String) : FileMetadata :=
  match st.sidecars filename with
  | SidecarState.readable m => m
  | _ => defaultMetadata filename

/-- save_file_metadata (app.py lines 140-147). -/
def save_file_metadata (st : ServerState) (filename : String) (m : FileMetadata) :
    ServerState :=
  { st with sidecars := fun x => if x = filename then SidecarState.readable m
                                 else st.sidecars x }

/-- add_download_record (app.py lines 168-181): load, append one record, save.
The guard for a missing downloads key is vacuous on well-typed metadata. -/
def add_download_record (st : ServerState) (filename username nowStr : String) :
    ServerState :=
  let m := load_file_metadata st filename
  save_file_metadata st filename
    { m with downloads := m.downloads ++ [{ username := username, timestamp := nowStr }] }

/-- update_user_activity (app.py lines 183-205): a no-op without an
authenticated session with a username, otherwise an upsert of the composed
session id followed by an amortized sweep of timed-out records. -/
def update_user_activity (st : ServerState) (caller : Option Caller) (now : Nat) :
    ServerState :=
  match caller with
  | none => st
  | some c =>
    let session_id := c.remote_addr ++ "_" ++ c.username ++ "_" ++ c.sid
    let users1 := assocUpsert session_id
      { username := c.username, last_seen := now, is_server := c.is_server }
      st.connected_users
    { st with connected_users :=
        users1.filter (fun p => now - p.2.last_seen ≤ USER_TIMEOUT) }

/-- The main loop of get_online_users (app.py lines 212-224): records within
the timeout are deduplicated by username into an insertion-ordered dict,
a host-flagged record overwriting an existing entry. -/
def online_loop (now : Nat) : List (String × UserRecord) → List (String × OnlineUser) →
    List (String × OnlineUser)
  | [], acc => acc
  | (_, u) :: rest, acc =>
    if now - u.last_seen ≤ USER_TIMEOUT then
      if assocLookup u.username acc = none ∨ u.is_server = true then
        online_loop now rest (assocUpsert u.username
          { username := u.username, is_server := u.is_server } acc)
      else
        online_loop now rest acc
    else
      online_loop now rest acc

/-- get_online_users (app.py lines 207-228): touch the caller, collect the
within-timeout records, purge the timed-out ones, return the dict values. -/
def get_online_users (st : ServerState) (caller : Option Caller) (now : Nat) :
    ServerState × List OnlineUser :=
  let st1 := update_user_activity st caller now
  let onl := online_loop now st1.connected_users []
  let st2 := { st1 with connected_users :=
      st1.connected_users.filter (fun p => now - p.2.last_seen ≤ USER_TIMEOUT) }
  (st2, onl.map Prod.snd)

/-- Python str.strip: drop whitespace from both ends (structurally recursive
so that it evaluates in the kernel). -/
def stripName (s : String) : String :=
  String.mk (((s.data.dropWhile Char.isWhitespace).reverse.dropWhile Char.isWhitespace).reverse)

/-- The deduplication scan of join_request (app.py lines 419-422): the first
pending entry with the given name, in dict insertion order. -/
def findPendingByName (name : String) : List (String × PendingClient) → Option String
  | [] => none
  | (cid, cd) :: rest =>
    if cd.name = name ∧ cd.status = "pending" then some cid
    else findPendingByName name rest

/-- join_request (app.py lines 394-435).  The uuid4 fresh id is passed in as
newId, the wall clock as now. -/
def join_request (st : ServerState) (rawName ip newId : String) (now : Nat) :
    ServerState × JoinResponse :=
  let client_name := stripName rawName
  if client_name = "" then
    (st, { success := false, client_id := none,
           error := some "Please enter your name", status := 400 })
  else if 20 < client_name.length then
    (st, { success := false, client_id := none,
           error := some "Name must be 20 characters or less", status := 400 })
  else
    match findPendingByName client_name st.pending_clients with
    | some cid =>
      (st, { success := true, client_id := some cid, error := none, status := 200 })
    | none =>
      ({ st with pending_clients := st.pending_clients ++
          [(newId, { name := client_name, status := "pending",
                     timestamp := now, ip := ip })] },
       { success := true, client_id := some newId, error := none, status := 200 })

/-- The assembly loop of upload_chunk (app.py lines 841-853): concatenate the
temp chunks 0..n-1 in index order; none models the exception raised when a
required chunk is missing. -/
def assembleChunks (temp : Nat → Option (List Nat)) : Nat → Option (List Nat)
  | 0 => some []
  | n + 1 =>
    match assembleChunks temp n, temp n with
    | some acc, some c => some (acc ++ c)
    | _, _ => none

/-- Deletion of the temp chunks 0..n-1 of one transfer: consumed one by one on
the success path, purged by the cleanup loop on the error path. -/
def clearChunks (m : String → Nat → Option (List Nat)) (k : String) (n : Nat) :
    String → Nat → Option (List Nat) :=
  fun x j => if x = k ∧ j < n then none else m x j

/-- The read of active_transfers with creation of a fresh record on the first
chunk of a filename (app.py lines 814-822). -/
def lookupTransfer (st : ServerState) (transfer_id filename : String)
    (total_chunks : Nat) : Transfer :=
  match st.activeTransfers transfer_id with
  | some t => t
  | none => { filename := filename, total_chunks := total_chunks,
              received_chunks := [], total_bytes := 0, chunk_sizes := [] }

/-- upload_chunk (app.py lines 786-919).  The username comes from the session
(none models a session without one); nowStr is the datetime.now string.  The
speed field of the response and the size-mismatch warning print, both pure
wall-clock observability, are omitted. -/
def upload_chunk (st : ServerState) (user : Option String) (filename0 : String)
    (chunk_index total_chunks : Nat) (chunk : List Nat) (nowStr : String) :
    ServerState × UploadResponse :=
  match user with
  | none =>
    (st, { success := false, completed := false, received := none, total := none,
           size := none, status := 400, error := some "Please set your username first" })
  | some username =>
    let filename := secure_filename filename0
    let transfer_id := get_file_hash filename
    let temp1 := fupd2 st.tempChunks transfer_id chunk_index (some chunk)
    let chunk_size := chunk.length
    let t0 := lookupTransfer st transfer_id filename total_chunks
    let t1 : Transfer := { t0 with
      received_chunks := setAdd chunk_index t0.received_chunks,
      chunk_sizes := assocUpsert chunk_index chunk_size t0.chunk_sizes,
      total_bytes := t0.total_bytes + chunk_size }
    let received := t1.received_chunks.length
    let st1 := { st with tempChunks := temp1,
                         activeTransfers := fupd st.activeTransfers transfer_id (some t1) }
    if received = total_chunks then
      let st2 := { st1 with assemblingFiles := strAdd filename st1.assemblingFiles }
      match assembleChunks (st2.tempChunks transfer_id) total_chunks with
      | some data =>
        let final_size := data.length
        let st3 := { st2 with
          finalFiles := fupd st2.finalFiles filename (some data),
          tempChunks := clearChunks st2.tempChunks transfer_id total_chunks }
        let st4 := save_file_metadata st3 filename
          { filename := filename, uploaded_by := username, upload_time := nowStr,
            file_size := final_size, downloads := [] }
        let st5 := { st4 with assemblingFiles := strRemove filename st4.assemblingFiles }
        let sysMsg := username ++ " uploaded " ++ filename
        let st6 := { st5 with chatMessages := add_chat_message st5.chatMessages "System" sysMsg nowStr "system" }
        let st7 := { st6 with activeTransfers := fupd st6.activeTransfers transfer_id none }
        (st7, { success := true, completed := true, received := none, total := none,
                size := some final_size, status := 200, error := none })
      | none =>
        let st2e := { st2 with assemblingFiles := strRemove filename st2.assemblingFiles }
        let st3e := { st2e with
          tempChunks := clearChunks st2e.tempChunks transfer_id total_chunks }
        let st4e := { st3e with finalFiles := fupd st3e.finalFiles filename none }
        let st5e := { st4e with
          activeTransfers := fupd st4e.activeTransfers transfer_id none }
        (st5e, { success := false, completed := false, received := none, total := none,
                 size := none, status := 500, error := some "Missing chunk" })
    else
      (st1, { success := true, completed := false, received := some received,
              total := some total_chunks, size := none, status := 200, error := none })

/-- The net bytes produced by the range generator of download_parallel
(app.py lines 1403-1413): seek to start, stream at most length bytes. -/
def range_body (data : List Nat) (start : Nat) (length : Int) : List Nat :=
  (data.drop start).take length.toNat

/-- download_parallel (app.py lines 1366-1438).  The username comes from the
session; the Range header is modeled after the split on the dash, an absent
bound being none. -/
def download_parallel (st : ServerState) (filename : String) (user : Option String)
    (rangeHeader : Option (Option Nat × Option Nat)) (nowStr : String) :
    ServerState × DownloadResponse :=
  match user with
  | none => (st, { status := 403, body := none, contentRange := none, contentLength := none })
  | some username =>
    if filename ∈ st.assemblingFiles then
      (st, { status := 425, body := none, contentRange := none, contentLength := none })
    else
      match st.finalFiles (secure_filename filename) with
      | none => (st, { status := 404, body := none, contentRange := none, contentLength := none })
      | some data =>
        let st1 := add_download_record st filename username nowStr
        let file_size := data.length
        match rangeHeader with
        | some (s0, e0) =>
          let start := s0.getD 0
          let endB := e0.getD (file_size - 1)
          let length : Int := (endB : Int) - (start : Int) + 1
          (st1, { status := 206, body := some (range_body data start length),
                  contentRange := some (start, endB, file_size),
                  contentLength := some length })
        | none =>
          (st1, { status := 200, body := some data, contentRange := none,
                  contentLength := some (file_size : Int) })

/-- file_info (app.py lines 1440-1448): load_file_metadata never raises, so the
endpoint always answers 200 with a metadata object. -/
def file_info (st : ServerState) (filename : String) : InfoResponse :=
  { status := 200, metadata := load_file_metadata st filename }

/-- Index-order concatenation of the chunk contents 0..n-1. -/
def concatChunks (c : Nat → List Nat) : Nat → List Nat
  | 0 => []
  | n + 1 => concatChunks c n ++ c n

/-- Run a sequence of upload_chunk requests for one file, keeping the state. -/
def runUpload (st : ServerState) (user filename : String) (total : Nat)
    (c : Nat → List Nat) (nowStr : String) (idxs : List Nat) : ServerState :=
  idxs.foldl (fun s i => (upload_chunk s (some user) filename i total (c i) nowStr).1) st

/-- The transfer record after the chunks listed in q arrived, in that order. -/
def transferAfter (filename : String) (total : Nat) (c : Nat → List Nat)
    (q : List Nat) : Transfer :=
  { filename := filename, total_chunks := total,
    received_chunks := q.reverse,
    total_bytes := (q.map fun i => (c i).length).sum,
    chunk_sizes := q.map fun i => (i, (c i).length) }

/-- Sequential appends through add_chat_message. -/
def foldChat (log : List ChatMessage) (msgs : List ChatMessage) : List ChatMessage :=
  msgs.foldl (fun l m => add_chat_message l m.username m.message m.timestamp m.type) log

/-- The state of a freshly started server: empty folders and empty maps. -/
def initState : ServerState :=
  { tempChunks := fun _ _ => none, finalFiles := fun _ => none,
    activeTransfers := fun _ => none, assemblingFiles := [],
    sidecars := fun _ => SidecarState.missing, chatMessages := [],
    connected_users := [], pending_clients := [], kicked_users := [] }

/-! Helper lemmas about the list-encoded sets and association lists. -/

theorem setAdd_of_not_mem {i : Nat} {l : List Nat} (h : i ∉ l) : setAdd i l = i :: l := by
  simp [setAdd, h]

theorem setAdd_of_mem {i : Nat} {l : List Nat} (h : i ∈ l) : setAdd i l = l := by
  simp [setAdd, h]

theorem not_mem_strRemove (s : String) (l : List String) : s ∉ strRemove s l := by
  induction l with
  | nil => simp [strRemove]
  | cons y rest ih =>
    by_cases hy : y = s
    · simpa [strRemove, hy] using ih
    · simp only [strRemove, if_neg hy, List.mem_cons]
      rintro (h | h)
      · exact hy h.symm
      · exact ih h

theorem assocUpsert_append_fresh {α β : Type} [DecidableEq α] (k : α) (v : β)
    (l : List (α × β)) (h : k ∉ l.map Prod.fst) :
    assocUpsert k v l = l ++ [(k, v)] := by
  induction l with
  | nil => simp [assocUpsert]
  | cons p rest ih =>
    obtain ⟨x, w⟩ := p
    simp only [List.map_cons, List.mem_cons, not_or] at h
    have hx : ¬ x = k := fun hxk => h.1 hxk.symm
    simp [assocUpsert, hx, ih h.2]

theorem map_fst_pair_map (g : Nat → Nat) (q : List Nat) :
    (q.map fun i => (i, g i)).map Prod.fst = q := by
  induction q with
  | nil => rfl
  | cons a rest ih => simp [ih]

/-! Metadata store lemmas. -/

theorem load_add_download_record (st : ServerState) (f u ts : String) :
    load_file_metadata (add_download_record st f u ts) f =
      { load_file_metadata st f with downloads :=
          (load_file_metadata st f).downloads ++ [{ username := u, timestamp := ts }] } := by
  simp [add_download_record, save_file_metadata, load_file_metadata]

/-- Claim C10: loading metadata for a filename whose sidecar is missing or
unreadable returns the default record instead of raising, and the file_info
endpoint answers 200 with a well-formed metadata object. -/
theorem missing_metadata_default (st : ServerState) (f : String)
    (h : st.sidecars f = SidecarState.missing ∨ st.sidecars f = SidecarState.unreadable) :
    load_file_metadata st f =
      { filename := f, uploaded_by := "Unknown", upload_time := "Unknown",
        file_size := 0, downloads := [] } ∧
    file_info st f = { status := 200, metadata := load_file_metadata st f } := by
  constructor
  · rcases h with h | h <;> simp [load_file_metadata, h, defaultMetadata]
  · rfl

theorem missing_metadata_default_witness :
    load_file_metadata initState "x" =
      { filename := "x", uploaded_by := "Unknown", upload_time := "Unknown",
        file_size := 0, downloads := [] } :=
  (missing_metadata_default initState "x" (Or.inl rfl)).1

/-- Claim C2: a download request for a filename held in the assembling set is
answered 425 with no body and no state change, and no request for an
assembling filename is ever served bytes. -/
theorem assembling_blocks_download (st : ServerState) (f u ts : String)
    (rng : Option (Option Nat × Option Nat))
    (hassem : f ∈ st.assemblingFiles) :
    (download_parallel st f (some u) rng ts).2.status = 425 ∧
    (download_parallel st f (some u) rng ts).2.body = none ∧
    (download_parallel st f (some u) rng ts).1 = st ∧
    (∀ sess, (download_parallel st f sess rng ts).2.body = none) := by
  refine ⟨by simp [download_parallel, hassem], by simp [download_parallel, hassem],
    by simp [download_parallel, hassem], ?_⟩
  intro sess
  cases sess <;> simp [download_parallel, hassem]

def assemblingState : ServerState := { initState with assemblingFiles := ["f"] }

theorem assembling_blocks_download_witness :
    (download_parallel assemblingState "f" (some "u") none "t").2.status = 425 ∧
    (download_parallel assemblingState "f" (some "u") none "t").2.body = none :=
  ⟨(assembling_blocks_download assemblingState "f" "u" "t" none (by decide)).1,
   (assembling_blocks_download assemblingState "f" "u" "t" none (by decide)).2.1⟩

/-- Claim C5: a range request bytes=100-199 on a 1000-byte stored file is
answered 206 with exactly the bytes at offsets 100..199 and a Content-Range
header 100-199/1000. -/
theorem range_request_partial_content (st : ServerState) (f u ts : String)
    (data : List Nat)
    (hassem : f ∉ st.assemblingFiles)
    (hfile : st.finalFiles (secure_filename f) = some data)
    (hlen : data.length = 1000) :
    (download_parallel st f (some u) (some (some 100, some 199)) ts).2 =
      { status := 206, body := some ((data.drop 100).take 100),
        contentRange := some (100, 199, 1000), contentLength := some 100 } ∧
    ((data.drop 100).take 100).length = 100 := by
  constructor
  · simp [download_parallel, hassem, hfile, range_body, hlen]
  · simp [hlen]

def bigFileState : ServerState :=
  { initState with finalFiles := fupd initState.finalFiles "big" (some (List.range 1000)) }

theorem range_request_partial_content_witness :
    (download_parallel bigFileState "big" (some "u") (some (some 100, some 199)) "t").2.contentRange =
      some (100, 199, 1000) ∧
    (((download_parallel bigFileState "big" (some "u") (some (some 100, some 199)) "t").2.body.getD []).length = 100) := by
  have h := range_request_partial_content bigFileState "big" "u" "t" (List.range 1000)
    (by decide) rfl (by simp)
  constructor
  · rw [h.1]
  · rw [h.1]
    exact h.2

def twoRangeState : ServerState :=
  { initState with finalFiles := fupd initState.finalFiles "a" (some (List.range 10)) }

/-- Claim C3 counterexample: two successive range requests for the same file by
the same user each append a download record (the code records unconditionally
on every request that passes the assembling and existence checks), so a
subsequent range request does append an additional record, contradicting the
claim that only the first one records. -/
theorem range_requests_each_append_record :
    (load_file_metadata
      (download_parallel
        (download_parallel twoRangeState "a" (some "bob") (some (some 0, some 4)) "t1").1
        "a" (some "bob") (some (some 5, some 9)) "t2").1 "a").downloads =
      [{ username := "bob", timestamp := "t1" }, { username := "bob", timestamp := "t2" }] ∧
    ¬ (load_file_metadata
      (download_parallel
        (download_parallel twoRangeState "a" (some "bob") (some (some 0, some 4)) "t1").1
        "a" (some "bob") (some (some 5, some 9)) "t2").1 "a").downloads.length ≤ 1 := by
  constructor
  · rfl
  · decide

/-- Claim C3 as amended: every successful download request, whether a range
request or not, appends exactly one download record {username, timestamp} to
the FileMetadata of the file. -/
theorem download_always_records (st : ServerState) (f u ts : String)
    (data : List Nat) (rng : Option (Option Nat × Option Nat))
    (hassem : f ∉ st.assemblingFiles)
    (hfile : st.finalFiles (secure_filename f) = some data) :
    (load_file_metadata (download_parallel st f (some u) rng ts).1 f).downloads =
      (load_file_metadata st f).downloads ++ [{ username := u, timestamp := ts }] ∧
    ((download_parallel st f (some u) rng ts).2.status = 200 ∨
     (download_parallel st f (some u) rng ts).2.status = 206) := by
  have hst : (download_parallel st f (some u) rng ts).1 = add_download_record st f u ts := by
    rcases rng with _ | ⟨s0, e0⟩ <;> simp [download_parallel, hassem, hfile]
  constructor
  · rw [hst, load_add_download_record]
  · rcases rng with _ | ⟨s0, e0⟩ <;> simp [download_parallel, hassem, hfile]

theorem download_always_records_witness :
    (load_file_metadata (download_parallel twoRangeState "a" (some "bob") none "t").1 "a").downloads =
      (load_file_metadata twoRangeState "a").downloads ++ [{ username := "bob", timestamp := "t" }] :=
  (download_always_records twoRangeState "a" "bob" "t" (List.range 10) none (by decide) rfl).1

/-! Join-flow lemmas. -/

theorem findPendingByName_append (n cid : String) (cd : PendingClient)
    (l : List (String × PendingClient))
    (h : findPendingByName n l = none) (h1 : cd.name = n) (h2 : cd.status = "pending") :
    findPendingByName n (l ++ [(cid, cd)]) = some cid := by
  induction l with
  | nil => simp [findPendingByName, h1, h2]
  | cons p rest ih =>
    obtain ⟨c, d⟩ := p
    by_cases hc : d.name = n ∧ d.status = "pending"
    · simp [findPendingByName, hc] at h
    · simp only [List.cons_append, findPendingByName, if_neg hc] at h ⊢
      exact ih h

/-- Claim C8: while a join request for a display name is still pending, a
second submission of the same name returns the same request id as the first
one and creates no new pending record. -/
theorem join_request_idempotent (st : ServerState) (name ip1 ip2 id1 id2 : String)
    (t1 t2 : Nat)
    (hne : ¬ stripName name = "")
    (hlen : ¬ 20 < (stripName name).length)
    (hnone : findPendingByName (stripName name) st.pending_clients = none) :
    (join_request st name ip1 id1 t1).2.client_id = some id1 ∧
    (join_request (join_request st name ip1 id1 t1).1 name ip2 id2 t2).2.client_id = some id1 ∧
    (join_request (join_request st name ip1 id1 t1).1 name ip2 id2 t2).1 =
      (join_request st name ip1 id1 t1).1 := by
  have h1 : join_request st name ip1 id1 t1 =
      ({ st with pending_clients := st.pending_clients ++
          [(id1, { name := stripName name, status := "pending", timestamp := t1, ip := ip1 })] },
       { success := true, client_id := some id1, error := none, status := 200 }) := by
    simp [join_request, hne, hlen, hnone]
  have h2 : findPendingByName (stripName name) (st.pending_clients ++
      [(id1, { name := stripName name, status := "pending", timestamp := t1, ip := ip1 })]) =
      some id1 :=
    findPendingByName_append _ _ _ _ hnone rfl rfl
  rw [h1]
  refine ⟨rfl, ?_, ?_⟩ <;> simp [join_request, hne, hlen, h2]

theorem join_request_idempotent_witness :
    (join_request (join_request initState "alice" "ip1" "id1" 0).1 "alice" "ip2" "id2" 5).2.client_id =
      some "id1" :=
  (join_request_idempotent initState "alice" "ip1" "ip2" "id1" "id2" 0 5
    (by decide) (by decide) rfl).2.1

/-- Claim C9: submitting a chunk whose index was already received leaves the
set of distinct received indices unchanged, so the completion check sees the
same count and a duplicate below total_chunks never triggers assembly, while
the cumulative total_bytes counter still grows by the chunk size. -/
theorem duplicate_chunk_counts_once (st : ServerState) (t : Transfer) (f u ts : String)
    (i N : Nat) (b : List Nat)
    (hT : st.activeTransfers (get_file_hash f) = some t)
    (hi : i ∈ t.received_chunks)
    (hlt : t.received_chunks.length < N) :
    (upload_chunk st (some u) f i N b ts).1.activeTransfers (get_file_hash f) =
      some { t with chunk_sizes := assocUpsert i b.length t.chunk_sizes,
                    total_bytes := t.total_bytes + b.length } ∧
    (upload_chunk st (some u) f i N b ts).2.completed = false ∧
    (upload_chunk st (some u) f i N b ts).2.received = some t.received_chunks.length := by
  have hlook : lookupTransfer st (get_file_hash f) f N = t := by
    simp [lookupTransfer, hT]
  have hne : ¬ t.received_chunks.length = N := by omega
  have hmain : upload_chunk st (some u) f i N b ts =
      ({ st with tempChunks := fupd2 st.tempChunks (get_file_hash f) i (some b),
                 activeTransfers := fupd st.activeTransfers (get_file_hash f)
                   (some { t with chunk_sizes := assocUpsert i b.length t.chunk_sizes,
                                  total_bytes := t.total_bytes + b.length }) },
       { success := true, completed := false, received := some t.received_chunks.length,
         total := some N, size := none, status := 200, error := none }) := by
    simp only [upload_chunk, secure_filename, hlook, setAdd_of_mem hi, if_neg hne]
  rw [hmain]
  exact ⟨by simp [fupd], rfl, rfl⟩

def dupChunkState : ServerState :=
  { initState with
    activeTransfers := fupd initState.activeTransfers (get_file_hash "f")
      (some { filename := "f", total_chunks := 3, received_chunks := [5],
              total_bytes := 3, chunk_sizes := [(5, 3)] }),
    tempChunks := fupd2 initState.tempChunks (get_file_hash "f") 5 (some [1, 2, 3]) }

theorem duplicate_chunk_counts_once_witness :
    (upload_chunk dupChunkState (some "u") "f" 5 3 [9, 9] "t").1.activeTransfers (get_file_hash "f") =
      some { filename := "f", total_chunks := 3, received_chunks := [5],
             total_bytes := 5, chunk_sizes := [(5, 2)] } ∧
    (upload_chunk dupChunkState (some "u") "f" 5 3 [9, 9] "t").2.completed = false := by
  have h := duplicate_chunk_counts_once dupChunkState
    { filename := "f", total_chunks := 3, received_chunks := [5],
      total_bytes := 3, chunk_sizes := [(5, 3)] }
    "f" "u" "t" 5 3 [9, 9] rfl (by decide) (by decide)
  refine ⟨?_, h.2.1⟩
  rw [h.1]
  rfl

/-! Chat-log lemmas. -/

theorem add_chat_message_eq (log : List ChatMessage) (m : ChatMessage)
    (h : log.length ≤ 100) :
    add_chat_message log m.username m.message m.timestamp m.type =
      (log ++ [m]).drop (log.length + 1 - 100) := by
  have hm : ({ username := m.username, message := m.message,
               timestamp := m.timestamp, type := m.type } : ChatMessage) = m := rfl
  simp only [add_chat_message, MAX_MESSAGES, hm]
  by_cases hc : 100 < (log ++ [m]).length
  · rw [if_pos hc]
    simp only [List.length_append, List.length_cons, List.length_nil] at hc ⊢
    congr 1
    omega
  · rw [if_neg hc]
    simp only [List.length_append, List.length_cons, List.length_nil] at hc
    have h0 : log.length + 1 - 100 = 0 := by omega
    rw [h0, List.drop_zero]

theorem foldChat_drop (msgs : List ChatMessage) :
    ∀ log : List ChatMessage, log.length ≤ 100 →
      foldChat log msgs = (log ++ msgs).drop ((log ++ msgs).length - 100) := by
  induction msgs with
  | nil =>
    intro log h
    have h0 : log.length - 100 = 0 := by omega
    simp [foldChat, h0]
  | cons m rest ih =>
    intro log h
    have hk : log.length + 1 - 100 ≤ (log ++ [m]).length := by
      simp only [List.length_append, List.length_cons, List.length_nil]
      omega
    have hstep : foldChat log (m :: rest) =
        foldChat ((log ++ [m]).drop (log.length + 1 - 100)) rest := by
      show foldChat (add_chat_message log m.username m.message m.timestamp m.type) rest =
        foldChat ((log ++ [m]).drop (log.length + 1 - 100)) rest
      rw [add_chat_message_eq log m h]
    have hlen2 : ((log ++ [m]).drop (log.length + 1 - 100)).length ≤ 100 := by
      simp only [List.length_drop, List.length_append, List.length_cons, List.length_nil]
      omega
    have hsplit : (log ++ m :: rest).drop (log.length + 1 - 100) =
        (log ++ [m]).drop (log.length + 1 - 100) ++ rest := by
      have hassoc : log ++ m :: rest = (log ++ [m]) ++ rest := by simp
      rw [hassoc]
      exact List.drop_append_of_le_length hk
    rw [hstep, ih _ hlen2, ← hsplit, List.drop_drop]
    congr 1
    simp only [List.length_drop, List.length_append, List.length_cons, List.length_nil]
    omega

/-- Claim C6: the chat log length never exceeds 100 after any sequence of
appends from an empty log, and after 150 sequential appends the log holds
exactly the last 100 messages in their original order (strict FIFO). -/
theorem chat_log_fifo_bound (msgs : List ChatMessage) :
    (foldChat [] msgs).length ≤ 100 ∧
    (msgs.length = 150 → foldChat [] msgs = msgs.drop 50) := by
  have h := foldChat_drop msgs [] (by simp)
  simp only [List.nil_append] at h
  constructor
  · rw [h]
    simp only [List.length_drop]
    omega
  · intro h150
    rw [h, h150]

def chatBurst : List ChatMessage :=
  (List.range 150).map fun i =>
    { username := "u", message := toString i, timestamp := "t", type := "text" }

theorem chat_log_fifo_bound_witness :
    foldChat [] chatBurst = chatBurst.drop 50 ∧ (foldChat [] chatBurst).length ≤ 100 :=
  ⟨(chat_log_fifo_bound chatBurst).2 (by simp [chatBurst]),
   (chat_log_fifo_bound chatBurst).1⟩

/-! Presence lemmas. -/

theorem assocLookup_eq_some_mem {α β : Type} [DecidableEq α] {k : α} {v : β} :
    ∀ {l : List (α × β)}, assocLookup k l = some v → (k, v) ∈ l := by
  intro l
  induction l with
  | nil =>
    intro h
    simp [assocLookup] at h
  | cons p rest ih =>
    obtain ⟨x, w⟩ := p
    intro h
    by_cases hx : x = k
    · subst hx
      simp [assocLookup] at h
      simp [h]
    · simp only [assocLookup, if_neg hx] at h
      exact List.mem_cons_of_mem _ (ih h)

theorem mem_assocUpsert {α β : Type} [DecidableEq α] {kv : α × β} {k : α} {v : β} :
    ∀ {l : List (α × β)}, kv ∈ assocUpsert k v l → kv = (k, v) ∨ kv ∈ l := by
  intro l
  induction l with
  | nil =>
    intro h
    simpa [assocUpsert] using h
  | cons p rest ih =>
    obtain ⟨x, w⟩ := p
    intro h
    by_cases hx : x = k
    · subst hx
      simp [assocUpsert] at h
      rcases h with h | h
      · exact Or.inl h
      · exact Or.inr (List.mem_cons_of_mem _ h)
    · simp only [assocUpsert, if_neg hx, List.mem_cons] at h
      rcases h with h | h
      · exact Or.inr (by simp [h])
      · rcases ih h with h2 | h2
        · exact Or.inl h2
        · exact Or.inr (List.mem_cons_of_mem _ h2)

theorem self_mem_assocUpsert {α β : Type} [DecidableEq α] (k : α) (v : β)
    (l : List (α × β)) : (k, v) ∈ assocUpsert k v l := by
  induction l with
  | nil => simp [assocUpsert]
  | cons p rest ih =>
    obtain ⟨x, w⟩ := p
    by_cases hx : x = k <;> simp [assocUpsert, hx, ih]

theorem mem_assocUpsert_of_mem {α β : Type} [DecidableEq α] {kv : α × β} {k : α} {v : β}
    (hk : kv.1 ≠ k) : ∀ {l : List (α × β)}, kv ∈ l → kv ∈ assocUpsert k v l := by
  intro l
  induction l with
  | nil =>
    intro h
    simp at h
  | cons p rest ih =>
    obtain ⟨x, w⟩ := p
    intro h
    rcases List.mem_cons.mp h with h | h
    · by_cases hx : x = k
      · subst hx
        exact absurd (by simp [h]) hk
      · simp [assocUpsert, hx, h]
    · by_cases hx : x = k
      · subst hx
        simp [assocUpsert, List.mem_cons_of_mem _ h]
      · simp only [assocUpsert, if_neg hx, List.mem_cons]
        exact Or.inr (ih h)

theorem names_assocUpsert (name k : String) (v : OnlineUser)
    (acc : List (String × OnlineUser))
    (hacc : ∀ kv ∈ acc, (kv.2).username = kv.1)
    (hv : v.username = k) :
    (∃ kv ∈ assocUpsert k v acc, (kv.2).username = name) ↔
      (name = k ∨ ∃ kv ∈ acc, (kv.2).username = name) := by
  constructor
  · rintro ⟨kv, hkv, hn⟩
    rcases mem_assocUpsert hkv with h | h
    · subst h
      exact Or.inl (by rw [← hn]; exact hv)
    · exact Or.inr ⟨kv, h, hn⟩
  · rintro (h | ⟨kv, hkv, hn⟩)
    · exact ⟨(k, v), self_mem_assocUpsert k v acc, hv.trans h.symm⟩
    · by_cases hk : kv.1 = k
      · refine ⟨(k, v), self_mem_assocUpsert k v acc, ?_⟩
        rw [hv, ← hk, ← hacc kv hkv]
        exact hn
      · exact ⟨kv, mem_assocUpsert_of_mem hk hkv, hn⟩

theorem hacc_assocUpsert (k : String) (v : OnlineUser)
    (acc : List (String × OnlineUser))
    (hacc : ∀ kv ∈ acc, (kv.2).username = kv.1) (hv : v.username = k) :
    ∀ kv ∈ assocUpsert k v acc, (kv.2).username = kv.1 := by
  intro kv h
  rcases mem_assocUpsert h with h | h
  · subst h
    exact hv
  · exact hacc kv h

theorem online_loop_names (now : Nat) (name : String) :
    ∀ (l : List (String × UserRecord)) (acc : List (String × OnlineUser)),
    (∀ kv ∈ acc, (kv.2).username = kv.1) →
    ((∃ kv ∈ online_loop now l acc, (kv.2).username = name) ↔
      ((∃ kv ∈ acc, (kv.2).username = name) ∨
        ∃ p ∈ l, (p.2).username = name ∧ now - (p.2).last_seen ≤ USER_TIMEOUT)) := by
  intro l
  induction l with
  | nil =>
    intro acc hacc
    simp [online_loop]
  | cons p rest ih =>
    intro acc hacc
    obtain ⟨sid, u⟩ := p
    by_cases ht : now - u.last_seen ≤ USER_TIMEOUT
    · by_cases hins : assocLookup u.username acc = none ∨ u.is_server = true
      · rw [online_loop, if_pos ht, if_pos hins]
        rw [ih _ (hacc_assocUpsert u.username _ acc hacc rfl)]
        rw [names_assocUpsert name u.username _ acc hacc rfl]
        constructor
        · rintro ((rfl | h) | h)
          · exact Or.inr ⟨(sid, u), List.mem_cons_self _ _, rfl, ht⟩
          · exact Or.inl h
          · obtain ⟨q, hq, hn, hq2⟩ := h
            exact Or.inr ⟨q, List.mem_cons_of_mem _ hq, hn, hq2⟩
        · rintro (h | ⟨q, hq, hn, hq2⟩)
          · exact Or.inl (Or.inr h)
          · rcases List.mem_cons.mp hq with rfl | hq
            · exact Or.inl (Or.inl hn.symm)
            · exact Or.inr ⟨q, hq, hn, hq2⟩
      · rw [online_loop, if_pos ht, if_neg hins]
        rw [ih _ hacc]
        have hlook : ∃ w, assocLookup u.username acc = some w := by
          rcases hx : assocLookup u.username acc with _ | w
          · exact absurd (Or.inl hx) hins
          · exact ⟨w, rfl⟩
        obtain ⟨w, hw⟩ := hlook
        have hmem : (u.username, w) ∈ acc := assocLookup_eq_some_mem hw
        constructor
        · rintro (h | h)
          · exact Or.inl h
          · obtain ⟨q, hq, hn, hq2⟩ := h
            exact Or.inr ⟨q, List.mem_cons_of_mem _ hq, hn, hq2⟩
        · rintro (h | ⟨q, hq, hn, hq2⟩)
          · exact Or.inl h
          · rcases List.mem_cons.mp hq with rfl | hq
            · exact Or.inl ⟨(u.username, w), hmem, by rw [hacc _ hmem]; exact hn⟩
            · exact Or.inr ⟨q, hq, hn, hq2⟩
    · rw [online_loop, if_neg ht]
      rw [ih _ hacc]
      constructor
      · rintro (h | h)
        · exact Or.inl h
        · obtain ⟨q, hq, hn, hq2⟩ := h
          exact Or.inr ⟨q, List.mem_cons_of_mem _ hq, hn, hq2⟩
      · rintro (h | ⟨q, hq, hn, hq2⟩)
        · exact Or.inl h
        · rcases List.mem_cons.mp hq with rfl | hq
          · exact absurd hq2 ht
          · exact Or.inr ⟨q, hq, hn, hq2⟩

/-- Claim C7: an unauthenticated query of the online-user list at time now
includes a username exactly when some presence record for it was touched at
most 30 seconds earlier, and all older records are purged from the registry. -/
theorem online_users_timeout (st : ServerState) (now : Nat) (name : String) :
    ((∃ ou ∈ (get_online_users st none now).2, ou.username = name) ↔
      (∃ p ∈ st.connected_users, (p.2).username = name ∧ now - (p.2).last_seen ≤ 30)) ∧
    (get_online_users st none now).1.connected_users =
      st.connected_users.filter (fun p => now - (p.2).last_seen ≤ 30) := by
  constructor
  · have h := online_loop_names now name st.connected_users [] (by simp)
    simp only [USER_TIMEOUT] at h
    have hmap : (∃ ou ∈ (get_online_users st none now).2, ou.username = name) ↔
        ∃ kv ∈ online_loop now st.connected_users [], (kv.2 : OnlineUser).username = name := by
      show (∃ ou ∈ (online_loop now st.connected_users []).map Prod.snd, ou.username = name) ↔ _
      constructor
      · rintro ⟨ou, hou, hn⟩
        obtain ⟨kv, hkv, rfl⟩ := List.mem_map.mp hou
        exact ⟨kv, hkv, hn⟩
      · rintro ⟨kv, hkv, hn⟩
        exact ⟨kv.2, List.mem_map_of_mem Prod.snd hkv, hn⟩
    rw [hmap, h]
    simp
  · rfl

def presenceState : ServerState :=
  { initState with connected_users :=
      [("s1", { username := "alice", last_seen := 0, is_server := false })] }

theorem online_users_timeout_witness :
    (¬ ∃ ou ∈ (get_online_users presenceState none 31).2, ou.username = "alice") ∧
    (∃ ou ∈ (get_online_users presenceState none 29).2, ou.username = "alice") ∧
    (get_online_users presenceState none 31).1.connected_users = [] := by
  refine ⟨?_, ?_, ?_⟩
  · intro h
    have h2 := (online_users_timeout presenceState 31 "alice").1.mp h
    revert h2
    decide
  · exact (online_users_timeout presenceState 29 "alice").1.mpr (by decide)
  · rw [(online_users_timeout presenceState 31 "alice").2]
    rfl

/-! Chunk-assembly lemmas. -/

theorem assembleChunks_of_all (temp : Nat → Option (List Nat)) (c : Nat → List Nat) :
    ∀ N, (∀ j, j < N → temp j = some (c j)) →
      assembleChunks temp N = some (concatChunks c N) := by
  intro N
  induction N with
  | zero => intro _; rfl
  | succ n ih =>
    intro h
    rw [assembleChunks, ih (fun j hj => h j (Nat.lt_succ_of_lt hj)), h n (Nat.lt_succ_self n)]
    rfl

theorem assembleChunks_of_missing (temp : Nat → Option (List Nat)) {j : Nat} :
    ∀ N, j < N → temp j = none → assembleChunks temp N = none := by
  intro N
  induction N with
  | zero =>
    intro h
    exact absurd h (Nat.not_lt_zero j)
  | succ n ih =>
    intro hj hnone
    by_cases hjn : j = n
    · subst hjn
      cases hacc : assembleChunks temp j <;> simp [assembleChunks, hacc, hnone]
    · have hlt : j < n := by omega
      cases htn : temp n <;> simp [assembleChunks, ih hlt hnone, htn]

/-- The invariant tying the server state reached after the chunks listed in q
arrived (in that order) for one in-flight upload of filename f to the base
state st0 the upload started from. -/
def UploadInv (st0 st : ServerState) (f : String) (N : Nat) (c : Nat → List Nat)
    (q : List Nat) : Prop :=
  (st.activeTransfers (get_file_hash f) = some (transferAfter f N c q) ∨
    (q = [] ∧ st.activeTransfers (get_file_hash f) = none)) ∧
  (∀ j, st.tempChunks (get_file_hash f) j =
      if j ∈ q then some (c j) else st0.tempChunks (get_file_hash f) j) ∧
  st.finalFiles = st0.finalFiles ∧
  st.assemblingFiles = st0.assemblingFiles

theorem upload_step_partial (st0 st : ServerState) (f u ts : String) (N : Nat)
    (c : Nat → List Nat) (q : List Nat) (i : Nat)
    (hInv : UploadInv st0 st f N c q)
    (hi : i ∉ q)
    (hne : q.length + 1 ≠ N) :
    UploadInv st0 (upload_chunk st (some u) f i N (c i) ts).1 f N c (q ++ [i]) := by
  obtain ⟨hT, htemp, hfin, hasm⟩ := hInv
  have ht0 : lookupTransfer st (get_file_hash f) f N = transferAfter f N c q := by
    rcases hT with hT | ⟨hq, hT⟩
    · simp [lookupTransfer, hT]
    · subst hq
      simp [lookupTransfer, hT, transferAfter]
  have hirev : i ∉ q.reverse := by simpa using hi
  have hrc : setAdd i (transferAfter f N c q).received_chunks = (q ++ [i]).reverse := by
    simp [transferAfter, setAdd_of_not_mem hirev]
  have hkey : i ∉ ((q.map fun j => (j, (c j).length)).map Prod.fst) := by
    rw [map_fst_pair_map]
    exact hi
  have hcs : assocUpsert i (c i).length (transferAfter f N c q).chunk_sizes =
      ((q ++ [i]).map fun j => (j, (c j).length)) := by
    simp [transferAfter, assocUpsert_append_fresh _ _ _ hkey]
  have hne2 : ¬ ((q ++ [i]).reverse).length = N := by simpa using hne
  have htrans : ({ transferAfter f N c q with
      received_chunks := (q ++ [i]).reverse,
      chunk_sizes := (q ++ [i]).map fun j => (j, (c j).length),
      total_bytes := (transferAfter f N c q).total_bytes + (c i).length } : Transfer) =
      transferAfter f N c (q ++ [i]) := by
    simp [transferAfter]
  have hmain : upload_chunk st (some u) f i N (c i) ts =
      ({ st with
         tempChunks := fupd2 st.tempChunks (get_file_hash f) i (some (c i)),
         activeTransfers := fupd st.activeTransfers (get_file_hash f)
           (some (transferAfter f N c (q ++ [i]))) },
       { success := true, completed := false,
         received := some ((q ++ [i]).reverse).length,
         total := some N, size := none, status := 200, error := none }) := by
    simp only [upload_chunk, secure_filename, ht0, hrc, hcs, if_neg hne2, htrans]
  rw [hmain]
  refine ⟨Or.inl (by simp [fupd]), ?_, hfin, hasm⟩
  intro j
  by_cases hji : j = i
  · subst hji
    simp [fupd2]
  · have : (j ∈ q ++ [i]) ↔ j ∈ q := by simp [hji]
    simp only [fupd2, this]
    rw [htemp j]
    simp [hji]

theorem upload_run_partial (st0 : ServerState) (f u ts : String) (N : Nat)
    (c : Nat → List Nat) :
    ∀ (l : List Nat) (q : List Nat) (st : ServerState),
    UploadInv st0 st f N c q →
    (q ++ l).Nodup →
    q.length + l.length < N →
    UploadInv st0 (runUpload st u f N c ts l) f N c (q ++ l) := by
  intro l
  induction l with
  | nil =>
    intro q st hInv _ _
    simpa using hInv
  | cons i rest ih =>
    intro q st hInv hnd hlen
    have hi : i ∉ q := by
      intro hmem
      exact (List.disjoint_of_nodup_append hnd) hmem (List.mem_cons_self i rest)
    have hne : q.length + 1 ≠ N := by
      simp only [List.length_cons] at hlen
      omega
    have hstep := upload_step_partial st0 st f u ts N c q i hInv hi hne
    have hrun : runUpload st u f N c ts (i :: rest) =
        runUpload (upload_chunk st (some u) f i N (c i) ts).1 u f N c ts rest := rfl
    have happ : q ++ i :: rest = (q ++ [i]) ++ rest := by simp
    rw [hrun, happ]
    apply ih (q ++ [i]) _ hstep
    · rw [← happ]
      exact hnd
    · simp only [List.length_append, List.length_cons, List.length_nil] at hlen ⊢
      omega

theorem upload_step_complete (st0 st : ServerState) (f u ts : String) (N : Nat)
    (c : Nat → List Nat) (q : List Nat) (i : Nat)
    (hInv : UploadInv st0 st f N c q)
    (h0 : ∀ j, st0.tempChunks (get_file_hash f) j = none)
    (hi : i ∉ q)
    (hlen : q.length + 1 = N)
    (hbound : ∀ j, j ∈ q ++ [i] → j < N)
    (hcov : ∀ j, j < N → j ∈ q ++ [i]) :
    (upload_chunk st (some u) f i N (c i) ts).1.finalFiles f = some (concatChunks c N) ∧
    (∀ j, (upload_chunk st (some u) f i N (c i) ts).1.tempChunks (get_file_hash f) j = none) ∧
    (upload_chunk st (some u) f i N (c i) ts).1.activeTransfers (get_file_hash f) = none ∧
    f ∉ (upload_chunk st (some u) f i N (c i) ts).1.assemblingFiles ∧
    (upload_chunk st (some u) f i N (c i) ts).2.completed = true ∧
    (upload_chunk st (some u) f i N (c i) ts).2.success = true := by
  obtain ⟨hT, htemp, hfin, hasm⟩ := hInv
  have ht0 : lookupTransfer st (get_file_hash f) f N = transferAfter f N c q := by
    rcases hT with hT | ⟨hq, hT⟩
    · simp [lookupTransfer, hT]
    · subst hq
      simp [lookupTransfer, hT, transferAfter]
  have hirev : i ∉ q.reverse := by simpa using hi
  have hrc : setAdd i (transferAfter f N c q).received_chunks = (q ++ [i]).reverse := by
    simp [transferAfter, setAdd_of_not_mem hirev]
  have heq : ((q ++ [i]).reverse).length = N := by simpa using hlen
  have htw : ∀ j, j < N →
      fupd2 st.tempChunks (get_file_hash f) i (some (c i)) (get_file_hash f) j = some (c j) := by
    intro j hj
    by_cases hji : j = i
    · subst hji
      simp [fupd2]
    · have hjq : j ∈ q := by
        rcases List.mem_append.mp (hcov j hj) with h | h
        · exact h
        · simp at h
          exact absurd h hji
      simp only [fupd2]
      rw [if_neg (by simp [hji])]
      rw [htemp j]
      simp [hjq]
  have hassem : assembleChunks
      (fupd2 st.tempChunks (get_file_hash f) i (some (c i)) (get_file_hash f)) N =
      some (concatChunks c N) :=
    assembleChunks_of_all _ c N htw
  refine ⟨?_, ?_, ?_, ?_, ?_, ?_⟩
  · simp only [upload_chunk, secure_filename, ht0, hrc]
    rw [if_pos heq]
    rw [hassem]
    simp [save_file_metadata, fupd]
  · intro j
    simp only [upload_chunk, secure_filename, ht0, hrc]
    rw [if_pos heq]
    rw [hassem]
    simp only [save_file_metadata]
    by_cases hj : j < N
    · simp [clearChunks, hj]
    · have hji : j ≠ i := by
        intro e
        exact hj (e ▸ hbound i (by simp))
      have hjq : j ∉ q := fun hq => hj (hbound j (List.mem_append.mpr (Or.inl hq)))
      simp only [clearChunks]
      rw [if_neg (by simp [hj])]
      simp only [fupd2]
      rw [if_neg (by simp [hji])]
      rw [htemp j]
      simp [hjq, h0 j]
  · simp only [upload_chunk, secure_filename, ht0, hrc]
    rw [if_pos heq]
    rw [hassem]
    simp [save_file_metadata, fupd]
  · simp only [upload_chunk, secure_filename, ht0, hrc]
    rw [if_pos heq]
    rw [hassem]
    simp only [save_file_metadata]
    exact not_mem_strRemove f _
  · simp only [upload_chunk, secure_filename, ht0, hrc]
    rw [if_pos heq]
    rw [hassem]
  · simp only [upload_chunk, secure_filename, ht0, hrc]
    rw [if_pos heq]
    rw [hassem]

/-- Claim C1: for every total chunk count N and every arrival permutation of
the indices 0..N-1 uploaded for the same filename, the assembled final file
equals the concatenation of the chunk contents in index order, and every temp
chunk of the transfer is deleted. -/
theorem upload_permutation_assembles (st : ServerState) (f u ts : String) (N : Nat)
    (c : Nat → List Nat) (perm : List Nat)
    (hperm : List.Perm perm (List.range N))
    (hN : 0 < N)
    (hT : st.activeTransfers (get_file_hash f) = none)
    (htemp : ∀ j, st.tempChunks (get_file_hash f) j = none) :
    (runUpload st u f N c ts perm).finalFiles f = some (concatChunks c N) ∧
    (∀ j, (runUpload st u f N c ts perm).tempChunks (get_file_hash f) j = none) := by
  have hlenp : perm.length = N := by simpa using hperm.length_eq
  have hnd : perm.Nodup := hperm.nodup_iff.mpr (List.nodup_range N)
  rcases List.eq_nil_or_concat perm with hnil | ⟨L, a, hconcat⟩
  · rw [hnil] at hlenp
    simp at hlenp
    omega
  · rw [List.concat_eq_append] at hconcat
    have hLlen : L.length + 1 = N := by
      rw [hconcat] at hlenp
      simpa using hlenp
    have hInv0 : UploadInv st st f N c [] := by
      refine ⟨Or.inr ⟨rfl, hT⟩, ?_, rfl, rfl⟩
      intro j
      simp
    have hndL : (([] : List Nat) ++ L).Nodup := by
      simp only [List.nil_append]
      exact (hconcat ▸ hnd).sublist (L.sublist_append_left [a])
    have hrun := upload_run_partial st f u ts N c L [] st hInv0 hndL
      (by simp only [List.length_nil, List.length_append, Nat.zero_add]; omega)
    simp only [List.nil_append] at hrun
    have hia : a ∉ L := by
      have hnd2 : (L ++ [a]).Nodup := hconcat ▸ hnd
      intro hmem
      exact (List.disjoint_of_nodup_append hnd2) hmem (List.mem_cons_self a [])
    have hbound : ∀ j, j ∈ L ++ [a] → j < N := by
      intro j hj
      have : j ∈ List.range N := hperm.subset (hconcat ▸ hj)
      simpa using this
    have hcov : ∀ j, j < N → j ∈ L ++ [a] := by
      intro j hj
      have : j ∈ perm := hperm.symm.subset (by simpa using hj)
      exact hconcat ▸ this
    have hstep := upload_step_complete st (runUpload st u f N c ts L) f u ts N c L a
      hrun htemp hia hLlen hbound hcov
    have hfinal : runUpload st u f N c ts perm =
        (upload_chunk (runUpload st u f N c ts L) (some u) f a N (c a) ts).1 := by
      rw [hconcat]
      simp [runUpload, List.foldl_append]
    rw [hfinal]
    exact ⟨hstep.1, hstep.2.1⟩

def chunkW : Nat → List Nat := fun i => [i, i + 7]

theorem upload_permutation_assembles_witness :
    (runUpload initState "u" "f.txt" 2 chunkW "t" [1, 0]).finalFiles "f.txt" =
      some [0, 7, 1, 8] ∧
    (runUpload initState "u" "f.txt" 2 chunkW "t" [1, 0]).tempChunks (get_file_hash "f.txt") 0 = none := by
  have h := upload_permutation_assembles initState "f.txt" "u" "t" 2 chunkW [1, 0]
    (by decide) (by decide) rfl (fun j => rfl)
  exact ⟨h.1.trans (by rfl), h.2 0⟩

/-- Claim C4: when the assembly loop raises (a required chunk is missing),
the partial final file is removed, the temp chunks of the transfer are purged,
the transfer record is evicted, an error response is returned, and a
subsequent download of the filename answers 404. -/
theorem assembly_failure_cleanup (st : ServerState) (t : Transfer) (f u ts : String)
    (i N : Nat) (b : List Nat)
    (hT : st.activeTransfers (get_file_hash f) = some t)
    (hcount : (setAdd i t.received_chunks).length = N)
    (hmiss : ∃ j, j < N ∧ j ≠ i ∧ st.tempChunks (get_file_hash f) j = none) :
    (upload_chunk st (some u) f i N b ts).1.finalFiles f = none ∧
    (∀ j, j < N → (upload_chunk st (some u) f i N b ts).1.tempChunks (get_file_hash f) j = none) ∧
    (upload_chunk st (some u) f i N b ts).1.activeTransfers (get_file_hash f) = none ∧
    f ∉ (upload_chunk st (some u) f i N b ts).1.assemblingFiles ∧
    (upload_chunk st (some u) f i N b ts).2.success = false ∧
    (upload_chunk st (some u) f i N b ts).2.status = 500 ∧
    (download_parallel (upload_chunk st (some u) f i N b ts).1 f (some u) none ts).2.status = 404 := by
  obtain ⟨j, hj, hji, hjnone⟩ := hmiss
  have hlook : lookupTransfer st (get_file_hash f) f N = t := by
    simp [lookupTransfer, hT]
  have hassem : assembleChunks
      (fupd2 st.tempChunks (get_file_hash f) i (some b) (get_file_hash f)) N = none := by
    apply assembleChunks_of_missing _ N hj
    simp only [fupd2]
    rw [if_neg (by simp [hji])]
    exact hjnone
  have hstate : (upload_chunk st (some u) f i N b ts).1.finalFiles f = none ∧
      (∀ j2, j2 < N → (upload_chunk st (some u) f i N b ts).1.tempChunks (get_file_hash f) j2 = none) ∧
      (upload_chunk st (some u) f i N b ts).1.activeTransfers (get_file_hash f) = none ∧
      f ∉ (upload_chunk st (some u) f i N b ts).1.assemblingFiles ∧
      (upload_chunk st (some u) f i N b ts).2.success = false ∧
      (upload_chunk st (some u) f i N b ts).2.status = 500 := by
    refine ⟨?_, ?_, ?_, ?_, ?_, ?_⟩
    · simp only [upload_chunk, secure_filename, hlook]
      rw [if_pos hcount]
      rw [hassem]
      simp [fupd]
    · intro j2 hj2
      simp only [upload_chunk, secure_filename, hlook]
      rw [if_pos hcount]
      rw [hassem]
      simp [clearChunks, hj2]
    · simp only [upload_chunk, secure_filename, hlook]
      rw [if_pos hcount]
      rw [hassem]
      simp [fupd]
    · simp only [upload_chunk, secure_filename, hlook]
      rw [if_pos hcount]
      rw [hassem]
      exact not_mem_strRemove f _
    · simp only [upload_chunk, secure_filename, hlook]
      rw [if_pos hcount]
      rw [hassem]
    · simp only [upload_chunk, secure_filename, hlook]
      rw [if_pos hcount]
      rw [hassem]
  refine ⟨hstate.1, hstate.2.1, hstate.2.2.1, hstate.2.2.2.1, hstate.2.2.2.2.1,
    hstate.2.2.2.2.2, ?_⟩
  simp [download_parallel, secure_filename, hstate.2.2.2.1, hstate.1]

def brokenTransferState : ServerState :=
  { initState with
    activeTransfers := fupd initState.activeTransfers (get_file_hash "g")
      (some { filename := "g", total_chunks := 2, received_chunks := [5],
              total_bytes := 3, chunk_sizes := [(5, 3)] }),
    tempChunks := fupd2 initState.tempChunks (get_file_hash "g") 5 (some [1, 2, 3]) }

theorem assembly_failure_cleanup_witness :
    (upload_chunk brokenTransferState (some "u") "g" 0 2 [9] "t").2.status = 500 ∧
    (upload_chunk brokenTransferState (some "u") "g" 0 2 [9] "t").1.finalFiles "g" = none ∧
    (upload_chunk brokenTransferState (some "u") "g" 0 2 [9] "t").1.activeTransfers (get_file_hash "g") = none := by
  have h := assembly_failure_cleanup brokenTransferState
    { filename := "g", total_chunks := 2, received_chunks := [5],
      total_bytes := 3, chunk_sizes := [(5, 3)] }
    "g" "u" "t" 0 2 [9] rfl (by decide) ⟨1, by omega, by omega, rfl⟩
  exact ⟨h.2.2.2.2.2.1, h.1, h.2.2.1⟩
